import Mathlib

set_option maxHeartbeats 1000000

/-! Verification of the resume-updater program (src/main.py).

Strings are modelled as lists of characters; the Python string methods the
program uses (strip, split, upper, startswith, in, isupper) are embedded for
the ASCII range the program manipulates.  A docx document is modelled as a
list of paragraphs, a paragraph as a list of runs plus a style name, and a
run as a text payload plus a representative formatting attribute (bold).
The paragraph text is the concatenation of its run texts, as in python-docx. -/

namespace Resume

/-- Python whitespace test used by str.strip / str.split (ASCII range). -/
def pyIsSpace (c : Char) : Bool :=
  c == ' ' || c == '\t' || c == '\n' || c == '\r' || c == '\x0b' || c == '\x0c'

/-- Python s.lstrip(). -/
def pyLstrip (l : List Char) : List Char := l.dropWhile pyIsSpace

/-- Python s.rstrip(). -/
def pyRstrip (l : List Char) : List Char := (l.reverse.dropWhile pyIsSpace).reverse

/-- Python s.strip(). -/
def pyStrip (l : List Char) : List Char := pyRstrip (pyLstrip l)

/-- Python s.upper() (ASCII case mapping). -/
def pyUpper (l : List Char) : List Char := l.map Char.toUpper

/-- Python substring test `needle in hay`. -/
def pyContains (hay needle : List Char) : Bool :=
  hay.tails.any (fun t => needle.isPrefixOf t)

/-- Python s.isupper(): at least one cased character and no lowercase one (ASCII). -/
def pyIsUpper (l : List Char) : Bool :=
  l.any (fun c => c.isAlpha) && l.all (fun c => !c.isLower)

/-- Python s.startswith(single character c). -/
def pyStartsWithChar (c : Char) : List Char → Bool
  | [] => false
  | d :: _ => d == c

/-- Accumulator loop for Python s.split() with no argument. -/
def pySplitGo : List Char → List Char → List (List Char)
  | [], acc => if acc.isEmpty then [] else [acc.reverse]
  | c :: cs, acc =>
    if pyIsSpace c then
      if acc.isEmpty then pySplitGo cs [] else acc.reverse :: pySplitGo cs []
    else pySplitGo cs (c :: acc)

/-- Python s.split() with no argument: maximal runs of non-whitespace. -/
def pySplit (l : List Char) : List (List Char) := pySplitGo l []

/-- Python s.split(sep = a single newline): pieces between newlines, empties kept. -/
def splitLines : List Char → List (List Char)
  | [] => [[]]
  | c :: cs =>
    if c = '\n' then [] :: splitLines cs
    else
      match splitLines cs with
      | [] => [[c]]
      | l :: ls => (c :: l) :: ls

/-- Python sep.join for a single-space separator. -/
def joinSpace (ws : List (List Char)) : List Char := List.intercalate [' '] ws

/-- Python sep.join for a single-newline separator. -/
def joinNl (ls : List (List Char)) : List Char := List.intercalate ['\n'] ls

/-- A run: a text fragment carrying one formatting definition (bold is kept as
the representative formatting attribute; a fresh run has bold none). -/
structure Run where
  text : List Char
  bold : Option Bool
deriving DecidableEq

/-- A paragraph: ordered runs plus a paragraph style name (none is the default
style).  The paragraph text is the concatenation of the run texts. -/
structure Paragraph where
  runs : List Run
  style : Option String
deriving DecidableEq

/-- The text of a paragraph, as python-docx exposes it: run texts concatenated. -/
def paraText (p : Paragraph) : List Char := (p.runs.map Run.text).flatten

/-- Default paragraph used for out-of-range reads (the Python code would raise
IndexError there; every claim supplies in-range indices). -/
def emptyPara : Paragraph := { runs := [], style := none }

/-- Paragraph with a single default-formatted run, as produced by the
python-docx text setter. -/
def mkPara (s : String) : Paragraph :=
  { runs := [{ text := s.toList, bold := none }], style := none }

/-! ## process_work_experience (src/main.py lines 1-13) -/

/-- Embeds process_work_experience: each line of the text (rstripped, as in
`[l.rstrip() for l in text.split('\n')]`) becomes a pair (is a bullet, text):
a line whose stripped form starts with a literal dash gives
`(True, line.lstrip('-').strip())`, any other line gives `(False, line.strip())`. -/
def process_work_experience (text : List Char) : List (Bool × List Char) :=
  let lines := (splitLines text).map pyRstrip
  lines.map (fun line =>
    if pyStartsWithChar '-' (pyStrip line) then
      (true, pyStrip (line.dropWhile (fun c => c == '-')))
    else (false, pyStrip line))

/-! ## process_core_competencies (src/main.py lines 32-46) -/

/-- The character set of the Python call `l.strip('-•* \t')`. -/
def bulletDecor : List Char := ['-', '•', '*', ' ', '\t']

/-- Python `l.strip('-•* \t')`: strip those characters from both ends. -/
def pyStripDecor (l : List Char) : List Char :=
  ((l.dropWhile (fun c => bulletDecor.contains c)).reverse.dropWhile
    (fun c => bulletDecor.contains c)).reverse

/-- Embeds process_core_competencies: lines of the text that are not
whitespace-only are stripped of bullet decoration; of those, the lines whose
word count is 1 or 2 contribute their words joined by single spaces. -/
def process_core_competencies (text : List Char) : List (List Char) :=
  let lines := ((splitLines text).filter (fun l => !(pyStrip l).isEmpty)).map pyStripDecor
  lines.filterMap (fun line =>
    let words := pySplit line
    if 1 ≤ words.length ∧ words.length ≤ 2 then some (joinSpace words) else none)

/-! ## extract_section_text (src/main.py lines 63-87) -/

/-- Embeds the rebuild loop of extract_section_text: walk the paragraphs with a
running word offset `idx` into the capped word list `words`; a paragraph whose
word count would pass the limit contributes `' '.join(words[idx:word_limit])`
and stops the loop, any other paragraph contributes
`' '.join(words[idx:idx+len(para_words)])`. -/
def rebuildLimited (paras words : List (List Char)) (wordLimit idx : Nat) :
    List (List Char) :=
  match paras with
  | [] => []
  | p :: ps =>
    if wordLimit < idx + (pySplit p).length then
      [joinSpace ((words.drop idx).take (wordLimit - idx))]
    else
      joinSpace ((words.drop idx).take (pySplit p).length) ::
        rebuildLimited ps words wordLimit (idx + (pySplit p).length)

/-- Embeds extract_section_text: texts of the indexed paragraphs joined by
newlines; with a word limit, the word list is capped at the limit (the Python
loop appends words only while fewer than the limit were collected, i.e. keeps
the first `word_limit` words) and the paragraphs are rebuilt from it. -/
def extract_section_text (doc : List Paragraph) (indices : List Nat)
    (word_limit : Option Nat) : List Char :=
  let paras := indices.map (fun i => paraText (doc.getD i emptyPara))
  match word_limit with
  | some lim =>
    let words := ((paras.map pySplit).flatten).take lim
    joinNl (rebuildLimited paras words lim 0)
  | none => joinNl paras

/-! ## update_section_text (src/main.py lines 89-109) -/

/-- Embeds the run loop of update_section_text: each run receives the slice of
the new line at its own original length (`new_line[start:start+run_len]`),
with `start` advancing by the original run length. -/
def updateRunTexts (runs : List Run) (line : List Char) (start : Nat) : List Run :=
  match runs with
  | [] => []
  | r :: rs =>
    { r with text := (line.drop start).take r.text.length } ::
      updateRunTexts rs line (start + r.text.length)

/-- Embeds `para.runs[-1].text += new_line[start:]`. -/
def appendToLast (runs : List Run) (extra : List Char) : List Run :=
  match runs with
  | [] => []
  | [r] => [{ r with text := r.text ++ extra }]
  | r :: rs => r :: appendToLast rs extra

/-- Total length of the run texts of a paragraph (the final value of `start`). -/
def runsTotalLen (runs : List Run) : Nat := (runs.map (fun r => r.text.length)).sum

/-- Embeds the per-paragraph body of update_section_text: with runs present the
new line is sliced across the runs and any overflow is appended to the last
run; without runs the paragraph text is set, which in python-docx creates one
default-formatted run holding the line. -/
def update_section_para (p : Paragraph) (line : List Char) : Paragraph :=
  if p.runs.isEmpty then
    { p with runs := [{ text := line, bold := none }] }
  else
    { p with runs :=
        if runsTotalLen p.runs < line.length then
          appendToLast (updateRunTexts p.runs line 0) (line.drop (runsTotalLen p.runs))
        else updateRunTexts p.runs line 0 }

/-- An `enumerate` loop over paragraph indices that rewrites the paragraph at
each index with a function of the paragraph and the loop counter.  An index
outside the document is skipped (the Python code would raise IndexError; every
claim supplies in-range indices). -/
def setLoop (f : Paragraph → Nat → Paragraph) (doc : List Paragraph)
    (indices : List Nat) (i : Nat) : List Paragraph :=
  match indices with
  | [] => doc
  | idx :: rest =>
    match doc.get? idx with
    | some p => setLoop f (doc.set idx (f p i)) rest (i + 1)
    | none => setLoop f doc rest (i + 1)

/-- Embeds update_section_text: paragraph number `i` of the section receives
line `i` of the replacement text when that line exists; the source leaves the
paragraph untouched otherwise, modelled as rewriting it to itself. -/
def update_section_text (doc : List Paragraph) (indices : List Nat)
    (new_text : List Char) : List Paragraph :=
  let lines := splitLines new_text
  setLoop
    (fun p i => if i < lines.length then update_section_para p (lines.getD i []) else p)
    doc indices 0

/-! ## update_work_experience (src/main.py lines 15-31) -/

/-- Embeds the body of update_work_experience for one paragraph: the paragraph
is cleared; with a processed line available it receives one run holding the
line text and the List Bullet style for bullets (None style otherwise); past
the processed lines `para.text = ''` leaves one empty run, style untouched. -/
def workUpdatePara (p : Paragraph) (processed : List (Bool × List Char))
    (i : Nat) : Paragraph :=
  if i < processed.length then
    { runs := [{ text := (processed.getD i (false, [])).2, bold := none }],
      style := if (processed.getD i (false, [])).1 then some "List Bullet" else none }
  else
    { runs := [{ text := [], bold := none }], style := p.style }

/-- Embeds update_work_experience as the enumerate loop of workUpdatePara. -/
def update_work_experience (doc : List Paragraph) (indices : List Nat)
    (processed : List (Bool × List Char)) : List Paragraph :=
  setLoop (fun p i => workUpdatePara p processed i) doc indices 0

/-! ## parse_docx_sections (src/main.py lines 111-159) -/

/-- The intro marker 'DATA SCIENTIST'. -/
def introMarker : List Char := "DATA SCIENTIST".toList

/-- The skills header 'CORE COMPETENCIES'. -/
def skillsMarker : List Char := "CORE COMPETENCIES".toList

/-- The work-experience header 'WORK EXPERIENCE'. -/
def workMarker : List Char := "WORK EXPERIENCE".toList

/-- Header test for the intro: `intro_header in para.text.strip().upper()`. -/
def introTest (t : List Char) : Bool := pyContains (pyUpper (pyStrip t)) introMarker

/-- Header test for skills: `para.text.strip().upper() == skills_header`. -/
def skillsTest (t : List Char) : Bool := pyUpper (pyStrip t) == skillsMarker

/-- Header test for work experience: `para.text.strip().upper() == work_header`. -/
def workTest (t : List Char) : Bool := pyUpper (pyStrip t) == workMarker

/-- Embeds the header scan of parse_docx_sections: one pass over the paragraph
texts; a paragraph containing the intro marker records intro_start, otherwise
an exact skills match records skills_start, otherwise an exact work match
records work_start (later matches overwrite earlier ones). -/
def scanGo : List (List Char) → Nat → Option Nat × Option Nat × Option Nat →
    Option Nat × Option Nat × Option Nat
  | [], _, acc => acc
  | t :: ts, i, (a, b, c) =>
    if introTest t then scanGo ts (i + 1) (some i, b, c)
    else if skillsTest t then scanGo ts (i + 1) (a, some i, c)
    else if workTest t then scanGo ts (i + 1) (a, b, some i)
    else scanGo ts (i + 1) (a, b, c)

/-- The header positions (intro_start, skills_start, work_start) found by the scan. -/
def scanHeaders (texts : List (List Char)) : Option Nat × Option Nat × Option Nat :=
  scanGo texts 0 (none, none, none)

/-- The boundary test of the work-experience section:
`t.isupper() and len(t) > 3` on the stripped paragraph text. -/
def isCapsHeader (t : List Char) : Bool :=
  pyIsUpper (pyStrip t) && decide (3 < (pyStrip t).length)

/-- Embeds `for i in range(start, n): if caps-header: next_header = i; break`
with the remaining iteration count as fuel (`fuel = n - start` at the call);
when the loop finds nothing, next_header keeps its initial value n. -/
def findNextHeaderGo (texts : List (List Char)) : Nat → Nat → Nat
  | _, 0 => texts.length
  | i, fuel + 1 =>
    if isCapsHeader (texts.getD i []) then i else findNextHeaderGo texts (i + 1) fuel

/-- First index at or after `start` whose paragraph is a caps header, else the
paragraph count. -/
def findNextHeader (texts : List (List Char)) (start : Nat) : Nat :=
  findNextHeaderGo texts start (texts.length - start)

/-- The section map: paragraph indices per logical section. -/
structure SectionMap where
  intro : List Nat
  skills : List Nat
  work_experience : List Nat
  other : List Nat
deriving DecidableEq

/-- Embeds parse_docx_sections: scan for the three headers, then
intro = the single paragraph after intro_start when it exists,
skills = the open range between skills_start and work_start (both needed),
work_experience = from after work_start to the next caps header or the end,
other = all remaining indices. -/
def parse_docx_sections (doc : List Paragraph) : SectionMap :=
  let texts := doc.map paraText
  let n := texts.length
  match scanHeaders texts with
  | (intro_start, skills_start, work_start) =>
    let intro : List Nat :=
      match intro_start with
      | some i => if i + 1 < n then [i + 1] else []
      | none => []
    let skills : List Nat :=
      match skills_start, work_start with
      | some s, some w => List.range' (s + 1) (w - (s + 1))
      | _, _ => []
    let work : List Nat :=
      match work_start with
      | some w => List.range' (w + 1) (findNextHeader texts (w + 1) - (w + 1))
      | none => []
    let other : List Nat :=
      (List.range n).filter
        (fun x => !(decide (x ∈ intro) || decide (x ∈ skills) || decide (x ∈ work)))
    { intro := intro, skills := skills, work_experience := work, other := other }

/-! ## response splitting in main (src/main.py lines 315-324) -/

/-- The literal 'INTRO PARAGRAPH:' label. -/
def introLabel : List Char := "INTRO PARAGRAPH:".toList

/-- The literal 'SKILLS SECTION:' label. -/
def skillsLabel : List Char := "SKILLS SECTION:".toList

/-- The literal 'WORK EXPERIENCE SECTION:' label. -/
def workLabel : List Char := "WORK EXPERIENCE SECTION:".toList

/-- Case-insensitive match of one of the three labels at the head of the
remaining response (regex alternation tries them in pattern order); returns
the length of the matched label. -/
def matchLabel (s : List Char) : Option Nat :=
  if introLabel.isPrefixOf (pyUpper s) then some introLabel.length
  else if skillsLabel.isPrefixOf (pyUpper s) then some skillsLabel.length
  else if workLabel.isPrefixOf (pyUpper s) then some workLabel.length
  else none

/-- Embeds `re.split` over the three labels: scan left to right; each
non-overlapping label occurrence ends the current piece; the matched label
(length at least 15) is consumed.  The fuel argument only bounds the number of
scan steps; every step consumes at least one character, so with fuel at least
the length of `s` the zero-fuel case is never reached. -/
def reSplitGo : Nat → List Char → List Char → List (List Char)
  | _, [], acc => [acc.reverse]
  | 0, c :: cs, acc => [acc.reverse ++ (c :: cs)]
  | fuel + 1, c :: cs, acc =>
    match matchLabel (c :: cs) with
    | some k => acc.reverse :: reSplitGo fuel (cs.drop (k - 1)) []
    | none => reSplitGo fuel cs (c :: acc)

/-- The pieces of the generation response around the three labels
(`re.split(r'INTRO PARAGRAPH:|SKILLS SECTION:|WORK EXPERIENCE SECTION:', ..., re.I)`). -/
def reSplitLabels (s : List Char) : List (List Char) := reSplitGo s.length s []

/-- Embeds the response-splitting block of main: with at least four pieces,
pieces 1, 2 and 3 (stripped) become intro, skills and work experience; with
fewer, intro and skills stay empty and the whole stripped response becomes
the work-experience text. -/
def mainSplitSections (resp : List Char) : List Char × List Char × List Char :=
  let m := reSplitLabels resp
  if 4 ≤ m.length then (pyStrip (m.getD 1 []), pyStrip (m.getD 2 []), pyStrip (m.getD 3 []))
  else ([], [], pyStrip resp)

/-! ## Specification-side descriptions used for comparison -/

/-- Word-budgeted paragraph listing, written after the observed behaviour of
the extraction loop: a paragraph whose words fit the remaining budget is kept
whole (its words rejoined by single spaces) and the budget shrinks; the first
paragraph whose words would pass the budget contributes only the words that
still fit - an empty line when none do - and the listing stops there.
A paragraph with no words never stops the listing. -/
def specTakeLines (paras : List (List Char)) (budget : Nat) : List (List Char) :=
  match paras with
  | [] => []
  | p :: ps =>
    if budget < (pySplit p).length then [joinSpace ((pySplit p).take budget)]
    else joinSpace (pySplit p) :: specTakeLines ps (budget - (pySplit p).length)

/-- Written after the words of the spec for the skills filter: from the lines
of the text, keep exactly those whose content after stripping bullet and
whitespace decoration consists of one or two whitespace-separated words, in
input order, each rendered as its words joined by single spaces. -/
def coreCompetenciesSpec (text : List Char) : List (List Char) :=
  (((splitLines text).map (fun l => pySplit (pyStripDecor l))).filter
    (fun ws => decide (1 ≤ ws.length ∧ ws.length ≤ 2))).map joinSpace

/-! ## Concrete documents used to instantiate the theorems -/

/-- Two-paragraph document of the word-limit example. -/
def docWords : List Paragraph := [mkPara "one two three", mkPara "four five six seven"]

/-- Two-paragraph document whose word limit is exhausted exactly at the end of
the first paragraph. -/
def docBoundary : List Paragraph := [mkPara "a b", mkPara "c"]

/-- A document with the three section headers in canonical order. -/
def docHeaders : List Paragraph :=
  ["DATA SCIENTIST", "I analyze", "CORE COMPETENCIES", "Python",
   "WORK EXPERIENCE", "Did things", "EDUCATION"].map mkPara

/-- One-paragraph document with a single eleven-character run. -/
def docOneRun : List Paragraph := [mkPara "Hello world"]

/-- Two-paragraph document. -/
def docTwo : List Paragraph := [mkPara "alpha", mkPara "beta"]

/-- Three-paragraph document. -/
def docThree : List Paragraph := [mkPara "p0", mkPara "p1", mkPara "p2"]

/-! ## Lemmas about the index loop -/

theorem setLoop_get_not_mem (f : Paragraph → Nat → Paragraph) :
    ∀ (indices : List Nat) (doc : List Paragraph) (i j : Nat), j ∉ indices →
    (setLoop f doc indices i).get? j = doc.get? j := by
  intro indices
  induction indices with
  | nil => intro doc i j _; rfl
  | cons idx rest ih =>
    intro doc i j hj
    rw [List.mem_cons] at hj
    push_neg at hj
    obtain ⟨hji, hjr⟩ := hj
    cases h : doc.get? idx with
    | none => simp only [setLoop, h]; exact ih doc (i + 1) j hjr
    | some p =>
      simp only [setLoop, h]
      rw [ih _ (i + 1) j hjr]
      exact List.get?_set_ne _ _ (fun hh => hji hh.symm)

theorem setLoop_get_nth (f : Paragraph → Nat → Paragraph) :
    ∀ (indices : List Nat) (doc : List Paragraph) (i k : Nat),
    indices.Nodup → k < indices.length →
    (setLoop f doc indices i).get? (indices.getD k 0) =
      (doc.get? (indices.getD k 0)).map (fun p => f p (i + k)) := by
  intro indices
  induction indices with
  | nil => intro doc i k _ hk; simp at hk
  | cons idx rest ih =>
    intro doc i k hnd hk
    rw [List.nodup_cons] at hnd
    obtain ⟨hidx, hndr⟩ := hnd
    cases k with
    | zero =>
      rw [List.getD_cons_zero]
      cases h : doc.get? idx with
      | none =>
        simp only [setLoop, h]
        rw [setLoop_get_not_mem f rest doc (i + 1) idx hidx, h]
        rfl
      | some p =>
        simp only [setLoop, h]
        rw [setLoop_get_not_mem f rest _ (i + 1) idx hidx]
        have hlt : idx < doc.length := (List.get?_eq_some.mp h).1
        rw [List.get?_set_eq_of_lt _ hlt]
        simp
    | succ k' =>
      rw [List.getD_cons_succ]
      have hk' : k' < rest.length := by simpa using hk
      have hmem : rest.getD k' 0 ∈ rest := by
        rw [List.getD_eq_get rest 0 hk']
        exact List.get_mem rest k' hk'
      have harith : i + 1 + k' = i + (k' + 1) := by omega
      cases h : doc.get? idx with
      | none =>
        simp only [setLoop, h]
        rw [ih doc (i + 1) k' hndr hk', harith]
      | some p =>
        simp only [setLoop, h]
        rw [ih _ (i + 1) k' hndr hk']
        have hne : idx ≠ rest.getD k' 0 := fun hh => hidx (by rw [hh]; exact hmem)
        rw [List.get?_set_ne _ _ hne, harith]

/-! ## Lemmas about the run-slicing update -/

theorem updateRunTexts_textJoin (line : List Char) :
    ∀ (runs : List Run) (start : Nat),
    ((updateRunTexts runs line start).map Run.text).flatten =
      (line.drop start).take (runsTotalLen runs) := by
  intro runs
  induction runs with
  | nil => intro start; simp [updateRunTexts, runsTotalLen]
  | cons r rs ih =>
    intro start
    simp only [updateRunTexts, List.map_cons, List.flatten_cons, runsTotalLen,
      List.sum_cons]
    rw [ih]
    rw [List.take_add]
    congr 1
    rw [List.drop_drop, Nat.add_comm]
    rfl

theorem updateRunTexts_length (line : List Char) :
    ∀ (runs : List Run) (start : Nat),
    (updateRunTexts runs line start).length = runs.length := by
  intro runs
  induction runs with
  | nil => intro start; rfl
  | cons r rs ih => intro start; simp [updateRunTexts, ih]

theorem appendToLast_textJoin (extra : List Char) :
    ∀ (runs : List Run), runs ≠ [] →
    ((appendToLast runs extra).map Run.text).flatten =
      (runs.map Run.text).flatten ++ extra := by
  intro runs
  induction runs with
  | nil => intro h; exact absurd rfl h
  | cons r rs ih =>
    intro _
    cases rs with
    | nil => simp [appendToLast]
    | cons r2 rs2 =>
      simp only [appendToLast, List.map_cons, List.flatten_cons]
      rw [ih (by simp)]
      simp [List.append_assoc]

theorem paraText_update_section_para (p : Paragraph) (line : List Char)
    (h : p.runs ≠ []) : paraText (update_section_para p line) = line := by
  unfold update_section_para
  rw [if_neg (by simpa using h)]
  by_cases hlt : runsTotalLen p.runs < line.length
  · rw [if_pos hlt]
    unfold paraText
    have hne : updateRunTexts p.runs line 0 ≠ [] := by
      intro hh
      have := updateRunTexts_length line p.runs 0
      rw [hh] at this
      exact h (List.length_eq_zero.mp this.symm)
    rw [appendToLast_textJoin _ _ hne, updateRunTexts_textJoin]
    simp [List.take_append_drop]
  · rw [if_neg hlt]
    unfold paraText
    rw [updateRunTexts_textJoin]
    simp only [List.drop_zero]
    exact List.take_of_length_le (by omega)

/-! ## Claim C1 -/

/-- C1: for every paragraph with at least one run to which update_section_text
assigns a replacement line, the concatenation of the paragraph's run texts
afterwards is exactly that line (slices of the original run lengths, overflow
appended to the last run, trailing runs emptied); in particular a single run
at least as long as the new line reads back as exactly the new line. -/
theorem c1_update_section_text_paraText (doc : List Paragraph) (indices : List Nat)
    (text : List Char) (k : Nat) (p : Paragraph)
    (hnd : indices.Nodup) (hk : k < indices.length)
    (hline : k < (splitLines text).length)
    (hp : doc.get? (indices.getD k 0) = some p) (hr : p.runs ≠ []) :
    ∃ q, (update_section_text doc indices text).get? (indices.getD k 0) = some q ∧
      paraText q = (splitLines text).getD k [] := by
  refine ⟨update_section_para p ((splitLines text).getD k []), ?_,
    paraText_update_section_para _ _ hr⟩
  simp only [update_section_text]
  rw [setLoop_get_nth _ indices doc 0 k hnd hk, hp]
  simp [hline]

/-- Witness for C1: a document holding one paragraph with one run of length 11
updated with the single line "Bye!". -/
theorem c1_witness :
    [0].Nodup ∧ 0 < [0].length ∧ 0 < (splitLines "Bye!".toList).length ∧
    docOneRun.get? ([0].getD 0 0) = some (mkPara "Hello world") ∧
    (mkPara "Hello world").runs ≠ [] ∧
    ∃ q, (update_section_text docOneRun [0] "Bye!".toList).get? ([0].getD 0 0) = some q ∧
      paraText q = (splitLines "Bye!".toList).getD 0 [] :=
  ⟨by decide, by decide, by decide, by decide, by decide,
    c1_update_section_text_paraText docOneRun [0] "Bye!".toList 0 (mkPara "Hello world")
      (by decide) (by decide) (by decide) (by decide) (by decide)⟩

/-! ## Claim C8 -/

/-- C8: when the replacement text has fewer lines than there are indices,
update_section_text leaves every paragraph indexed at a position at or past
the line count completely unchanged (runs and style untouched), while each of
the first positions receives the corresponding line through the
run-preserving per-paragraph update. -/
theorem c8_update_section_text_frame (doc : List Paragraph) (indices : List Nat)
    (text : List Char) (k : Nat) (hnd : indices.Nodup) (hk : k < indices.length) :
    ((splitLines text).length ≤ k →
      (update_section_text doc indices text).get? (indices.getD k 0) =
        doc.get? (indices.getD k 0)) ∧
    (k < (splitLines text).length →
      (update_section_text doc indices text).get? (indices.getD k 0) =
        (doc.get? (indices.getD k 0)).map
          (fun p => update_section_para p ((splitLines text).getD k []))) := by
  constructor
  · intro hge
    simp only [update_section_text]
    rw [setLoop_get_nth _ indices doc 0 k hnd hk]
    have hno : ¬(k < (splitLines text).length) := by omega
    cases h : doc.get? (indices.getD k 0) <;> simp [hno]
  · intro hlt
    simp only [update_section_text]
    rw [setLoop_get_nth _ indices doc 0 k hnd hk]
    cases h : doc.get? (indices.getD k 0) <;> simp [hlt]

/-- Witness for C8: a two-paragraph section updated with a one-line text
leaves the second paragraph unchanged. -/
theorem c8_witness :
    [0, 1].Nodup ∧ 1 < [0, 1].length ∧ (splitLines "x".toList).length ≤ 1 ∧
    (update_section_text docTwo [0, 1] "x".toList).get? ([0, 1].getD 1 0) =
      docTwo.get? ([0, 1].getD 1 0) :=
  ⟨by decide, by decide, by decide,
    (c8_update_section_text_frame docTwo [0, 1] "x".toList 1 (by decide) (by decide)).1
      (by decide)⟩

/-! ## Claim C9 -/

/-- C9: extract_section_text with word limit 5 on the two-paragraph section
"one two three" / "four five six seven" returns exactly
"one two three\nfour five". -/
theorem c9_word_limit_example :
    extract_section_text docWords [0, 1] (some 5) = "one two three\nfour five".toList := by
  decide

/-! ## Claim C3 -/

/-- C3 counterexample: with word limit 2 over the paragraphs "a b" and "c"
the limit is exhausted exactly at the first paragraph boundary, yet the later
paragraph "c" still contributes a line - the empty one - so the output is
"a b\n" and not "a b" as the claim ("contributing no line, not even an empty
one") requires. -/
theorem c3_counterexample :
    extract_section_text docBoundary [0, 1] (some 2) = "a b\n".toList ∧
    extract_section_text docBoundary [0, 1] (some 2) ≠ "a b".toList := by
  exact ⟨by decide, by decide⟩

theorem rebuildLimited_eq_spec :
    ∀ (paras pre : List (List Char)) (lim : Nat), pre.length ≤ lim →
    rebuildLimited paras ((pre ++ (paras.map pySplit).flatten).take lim) lim pre.length =
      specTakeLines paras (lim - pre.length) := by
  intro paras
  induction paras with
  | nil => intro pre lim _; rfl
  | cons p ps ih =>
    intro pre lim hpre
    have hwords : ((pre ++ ((p :: ps).map pySplit).flatten).take lim).drop pre.length
        = (pySplit p ++ (ps.map pySplit).flatten).take (lim - pre.length) := by
      rw [List.map_cons, List.flatten_cons, List.take_append_eq_append_take,
        List.take_of_length_le hpre, List.drop_left]
    by_cases hc : lim < pre.length + (pySplit p).length
    · rw [rebuildLimited, if_pos hc, specTakeLines, if_pos (by omega)]
      rw [hwords, List.take_take, Nat.min_self, List.take_append_eq_append_take]
      have h0 : lim - pre.length - (pySplit p).length = 0 := by omega
      rw [h0, List.take_zero, List.append_nil]
    · rw [rebuildLimited, if_neg hc, specTakeLines, if_neg (by omega)]
      rw [hwords, List.take_take]
      have hmin : min (pySplit p).length (lim - pre.length) = (pySplit p).length := by
        omega
      rw [hmin, List.take_left]
      rw [List.map_cons, List.flatten_cons, ← List.append_assoc]
      have hlen2 : pre.length + (pySplit p).length = (pre ++ pySplit p).length := by
        simp
      rw [hlen2, ih (pre ++ pySplit p) lim (by simp; omega)]
      have harg : lim - (pre ++ pySplit p).length = lim - pre.length - (pySplit p).length := by
        simp only [List.length_append]
        omega
      rw [harg]

/-- C3 amended: extract_section_text counts words across the section's
paragraphs in order; a paragraph whose words fit the remaining budget is
rendered whole (its words joined by single spaces) and the budget shrinks; the
first paragraph whose words would pass the budget is truncated at the word
where the limit is hit - an empty line when no words remain, as happens when
the limit was exhausted exactly at an earlier paragraph boundary - and every
paragraph after it is dropped; paragraphs with no words never stop the
iteration and contribute empty lines. -/
theorem c3_amended_extract_characterisation (doc : List Paragraph)
    (indices : List Nat) (lim : Nat) :
    extract_section_text doc indices (some lim) =
      joinNl (specTakeLines (indices.map (fun i => paraText (doc.getD i emptyPara))) lim) := by
  simp only [extract_section_text]
  congr 1
  have h := rebuildLimited_eq_spec
    (indices.map (fun i => paraText (doc.getD i emptyPara))) [] lim (by simp)
  simpa using h

/-! ## Claim C4 -/

/-- C4 counterexample: the line " -x" (dash preceded by a space) is classified
as a bullet, but `line.lstrip('-')` strips nothing because the line starts
with a space, so the returned bullet text "-x" still has a leading dash,
refuting "no leading '-' remains". -/
theorem c4_counterexample :
    process_work_experience " -x".toList = [(true, "-x".toList)] ∧
    ("-x".toList).getD 0 ' ' = '-' := by
  exact ⟨by decide, by decide⟩

/-- C4 amended: process_work_experience yields one pair per line; a line is a
bullet exactly when its whitespace-trimmed form starts with a literal dash;
a bullet line's text is the line with dash characters removed from its literal
start (before any whitespace trimming, so a dash preceded by whitespace
survives) and then whitespace-trimmed; a non-bullet line's text is the line
whitespace-trimmed. -/
theorem c4_amended_work_classification (text : List Char) (k : Nat)
    (hk : k < (splitLines text).length) :
    ((process_work_experience text).length = (splitLines text).length) ∧
    (((process_work_experience text).getD k (false, [])).1 = true ↔
      pyStartsWithChar '-' (pyStrip (pyRstrip ((splitLines text).getD k []))) = true) ∧
    (((process_work_experience text).getD k (false, [])).1 = true →
      ((process_work_experience text).getD k (false, [])).2 =
        pyStrip ((pyRstrip ((splitLines text).getD k [])).dropWhile (fun c => c == '-'))) ∧
    (((process_work_experience text).getD k (false, [])).1 = false →
      ((process_work_experience text).getD k (false, [])).2 =
        pyStrip (pyRstrip ((splitLines text).getD k []))) := by
  have hsome : (splitLines text).get? k = some ((splitLines text).getD k []) := by
    rw [List.get?_eq_get hk, List.getD_eq_get _ _ hk]
  set l := (splitLines text).getD k [] with hl
  have hget : (process_work_experience text).getD k (false, []) =
      (if pyStartsWithChar '-' (pyStrip (pyRstrip l)) then
        (true, pyStrip ((pyRstrip l).dropWhile (fun c => c == '-')))
      else (false, pyStrip (pyRstrip l))) := by
    simp only [process_work_experience]
    rw [List.getD_eq_get?, List.get?_map, List.get?_map, hsome]
    rfl
  refine ⟨by simp [process_work_experience], ?_, ?_, ?_⟩
  · rw [hget]
    by_cases hc : pyStartsWithChar '-' (pyStrip (pyRstrip l)) = true
    · rw [if_pos hc]
      exact ⟨fun _ => hc, fun _ => rfl⟩
    · rw [if_neg hc]
      exact ⟨fun h => absurd h (by simp), fun h => absurd h hc⟩
  · intro hb
    rw [hget] at hb ⊢
    by_cases hc : pyStartsWithChar '-' (pyStrip (pyRstrip l)) = true
    · rw [if_pos hc]
    · rw [if_neg hc] at hb
      simp at hb
  · intro hb
    rw [hget] at hb ⊢
    by_cases hc : pyStartsWithChar '-' (pyStrip (pyRstrip l)) = true
    · rw [if_pos hc] at hb
      simp at hb
    · rw [if_neg hc]

/-- Witness for C4 amended: the bullet line "- hi" has its text computed by
stripping the literal leading dashes and trimming. -/
theorem c4_amended_witness :
    ((process_work_experience "- hi".toList).getD 0 (false, [])).2 =
      pyStrip ((pyRstrip ((splitLines "- hi".toList).getD 0 [])).dropWhile (fun c => c == '-')) :=
  (c4_amended_work_classification "- hi".toList 0 (by decide)).2.2.1 (by decide)

/-! ## Claim C5 -/

theorem pyStrip_eq_nil_all_space (l : List Char) (h : pyStrip l = []) :
    ∀ c ∈ l, pyIsSpace c = true := by
  unfold pyStrip pyRstrip pyLstrip at h
  rw [List.reverse_eq_nil_iff, List.dropWhile_eq_nil_iff] at h
  have hdrop : ∀ c ∈ l.dropWhile pyIsSpace, pyIsSpace c = true := by
    intro c hc
    exact h c (List.mem_reverse.mpr hc)
  intro c hc
  rw [← List.takeWhile_append_dropWhile (p := pyIsSpace) (l := l), List.mem_append] at hc
  cases hc with
  | inl hc => exact List.mem_takeWhile_imp hc
  | inr hc => exact hdrop c hc

theorem mem_pyStripDecor (l : List Char) (c : Char) (hc : c ∈ pyStripDecor l) :
    c ∈ l := by
  unfold pyStripDecor at hc
  rw [List.mem_reverse] at hc
  have h1 := (List.dropWhile_sublist (l :=
    (l.dropWhile (fun c => bulletDecor.contains c)).reverse)
    (p := fun c => bulletDecor.contains c)).subset hc
  rw [List.mem_reverse] at h1
  exact (List.dropWhile_sublist (l := l) (p := fun c => bulletDecor.contains c)).subset h1

theorem pySplitGo_all_space (l : List Char) (h : ∀ c ∈ l, pyIsSpace c = true) :
    pySplitGo l [] = [] := by
  induction l with
  | nil => rfl
  | cons c cs ih =>
    have hc : pyIsSpace c = true := h c (by simp)
    simp only [pySplitGo, hc, if_pos, List.isEmpty_nil, if_true]
    exact ih (fun d hd => h d (by simp [hd]))

theorem blank_line_no_words (l : List Char) (h : pyStrip l = []) :
    pySplit (pyStripDecor l) = [] :=
  pySplitGo_all_space _ (fun c hc => pyStrip_eq_nil_all_space l h c (mem_pyStripDecor l c hc))

theorem core_competencies_filter_eq (L : List (List Char)) :
    ((L.filter (fun l => !(pyStrip l).isEmpty)).map pyStripDecor).filterMap
      (fun line =>
        if 1 ≤ (pySplit line).length ∧ (pySplit line).length ≤ 2 then
          some (joinSpace (pySplit line)) else none) =
    ((L.map (fun l => pySplit (pyStripDecor l))).filter
      (fun ws => decide (1 ≤ ws.length ∧ ws.length ≤ 2))).map joinSpace := by
  induction L with
  | nil => rfl
  | cons l L' ih =>
    by_cases hb : pyStrip l = []
    · have hws : pySplit (pyStripDecor l) = [] := blank_line_no_words l hb
      simp only [List.filter_cons, List.map_cons, hb, List.isEmpty_nil, Bool.not_true,
        hws]
      rw [if_neg (by simp), if_neg (by simp)]
      exact ih
    · have hne : (!(pyStrip l).isEmpty) = true := by
        simp [List.isEmpty_iff, hb]
      simp only [List.filter_cons, List.map_cons, hne, if_pos, List.filterMap_cons]
      by_cases hcond : 1 ≤ (pySplit (pyStripDecor l)).length ∧
          (pySplit (pyStripDecor l)).length ≤ 2
      · rw [if_pos hcond, if_pos (by simpa using hcond)]
        simp only [List.map_cons]
        rw [ih]
      · rw [if_neg hcond, if_neg (by simpa using hcond)]
        exact ih

/-- C5: process_core_competencies keeps exactly the lines whose content, after
stripping leading/trailing bullet and whitespace decoration, consists of one
or two whitespace-separated words, in input order (each rendered as its words
joined by single spaces); lines with zero or three-or-more words are dropped.
In particular on "- Python\n- Machine Learning Engineering\n- SQL" it returns
["Python", "SQL"]. -/
theorem c5_core_competencies :
    (∀ text : List Char, process_core_competencies text = coreCompetenciesSpec text) ∧
    process_core_competencies "- Python\n- Machine Learning Engineering\n- SQL".toList =
      ["Python".toList, "SQL".toList] := by
  constructor
  · intro text
    simp only [process_core_competencies, coreCompetenciesSpec]
    exact core_competencies_filter_eq (splitLines text)
  · decide

/-! ## Claim C6 -/

/-- C6: when splitting the generation response case-insensitively on the three
literal section labels yields fewer than four pieces, the whole
whitespace-trimmed response is assigned as the work-experience text and intro
and skills stay empty; with four or more pieces, pieces 1, 2 and 3 (trimmed)
become intro, skills and work experience respectively. -/
theorem c6_main_split_fallback (resp : List Char) :
    ((reSplitLabels resp).length < 4 →
      mainSplitSections resp = ([], [], pyStrip resp)) ∧
    (4 ≤ (reSplitLabels resp).length →
      mainSplitSections resp =
        (pyStrip ((reSplitLabels resp).getD 1 []),
         pyStrip ((reSplitLabels resp).getD 2 []),
         pyStrip ((reSplitLabels resp).getD 3 []))) := by
  constructor
  · intro h
    simp only [mainSplitSections]
    rw [if_neg (by omega)]
  · intro h
    simp only [mainSplitSections]
    rw [if_pos h]

/-- Witness for C6: a label-free response falls back entirely to the
work-experience text. -/
theorem c6_witness :
    (reSplitLabels "just some text".toList).length < 4 ∧
    mainSplitSections "just some text".toList = ([], [], pyStrip "just some text".toList) :=
  ⟨by decide, (c6_main_split_fallback "just some text".toList).1 (by decide)⟩

/-! ## Claim C10 -/

theorem pyRstrip_all_space (l : List Char) (h : ∀ c ∈ l, pyIsSpace c = true) :
    pyRstrip l = [] := by
  unfold pyRstrip
  rw [List.reverse_eq_nil_iff, List.dropWhile_eq_nil_iff]
  intro c hc
  exact h c (List.mem_reverse.mp hc)

theorem process_work_experience_getD (text : List Char) (k : Nat) (d : Bool × List Char)
    (hk : k < (splitLines text).length) :
    (process_work_experience text).getD k d =
      (if pyStartsWithChar '-' (pyStrip (pyRstrip ((splitLines text).getD k []))) then
        (true, pyStrip ((pyRstrip ((splitLines text).getD k [])).dropWhile (fun c => c == '-')))
      else (false, pyStrip (pyRstrip ((splitLines text).getD k [])))) := by
  have hsome : (splitLines text).get? k = some ((splitLines text).getD k []) := by
    rw [List.get?_eq_get hk, List.getD_eq_get _ _ hk]
  simp only [process_work_experience]
  rw [List.getD_eq_get?, List.get?_map, List.get?_map, hsome]
  rfl

/-- C10: process_work_experience returns exactly one (is_bullet, text) pair per
newline-separated line of the input, in input order, and a blank or
whitespace-only line yields (False, ""); consequently update_work_experience
overwrites one target paragraph per input line, a blank line becoming an empty
paragraph with one empty default run and the default (normal) style. -/
theorem c10_one_tuple_per_line (text : List Char) (doc : List Paragraph)
    (indices : List Nat) (k : Nat) (hnd : indices.Nodup) (hk : k < indices.length) :
    ((process_work_experience text).length = (splitLines text).length) ∧
    (k < (splitLines text).length → pyStrip ((splitLines text).getD k []) = [] →
      (process_work_experience text).getD k (true, ['x']) = (false, [])) ∧
    (k < (process_work_experience text).length →
      (update_work_experience doc indices (process_work_experience text)).get?
          (indices.getD k 0) =
        (doc.get? (indices.getD k 0)).map (fun _ =>
          { runs := [{ text := ((process_work_experience text).getD k (false, [])).2,
                       bold := none }],
            style := if ((process_work_experience text).getD k (false, [])).1 then
                some "List Bullet" else none })) ∧
    (k < (splitLines text).length → pyStrip ((splitLines text).getD k []) = [] →
      (update_work_experience doc indices (process_work_experience text)).get?
          (indices.getD k 0) =
        (doc.get? (indices.getD k 0)).map (fun _ =>
          { runs := [{ text := [], bold := none }], style := none })) := by
  have hlen : (process_work_experience text).length = (splitLines text).length := by
    simp [process_work_experience]
  have hmain : (update_work_experience doc indices (process_work_experience text)).get?
      (indices.getD k 0) =
      (doc.get? (indices.getD k 0)).map
        (fun p => workUpdatePara p (process_work_experience text) (0 + k)) := by
    simp only [update_work_experience]
    exact setLoop_get_nth _ indices doc 0 k hnd hk
  have hblankpair : k < (splitLines text).length →
      pyStrip ((splitLines text).getD k []) = [] →
      ∀ d : Bool × List Char, (process_work_experience text).getD k d = (false, []) := by
    intro hkl hblank d
    rw [process_work_experience_getD text k d hkl]
    have hr : pyRstrip ((splitLines text).getD k []) = [] :=
      pyRstrip_all_space _ (pyStrip_eq_nil_all_space _ hblank)
    rw [hr]
    rfl
  refine ⟨hlen, fun hkl hblank => hblankpair hkl hblank _, ?_, ?_⟩
  · intro hkp
    rw [hmain]
    cases h : doc.get? (indices.getD k 0) with
    | none => rfl
    | some p =>
      simp only [Option.map_some']
      congr 1
      simp only [workUpdatePara, Nat.zero_add]
      rw [if_pos hkp]
  · intro hkl hblank
    have hkp : k < (process_work_experience text).length := by omega
    rw [hmain]
    cases h : doc.get? (indices.getD k 0) with
    | none => rfl
    | some p =>
      simp only [Option.map_some']
      congr 1
      simp only [workUpdatePara, Nat.zero_add]
      rw [if_pos hkp, hblankpair hkl hblank _]
      rfl

/-- Witness for C10: the blank middle line of "x\n\ny" clears the second
target paragraph to an empty default-styled paragraph. -/
theorem c10_witness :
    (update_work_experience docThree [0, 1, 2] (process_work_experience "x\n\ny".toList)).get?
        ([0, 1, 2].getD 1 0) =
      (docThree.get? ([0, 1, 2].getD 1 0)).map (fun _ =>
        { runs := [{ text := [], bold := none }], style := none }) :=
  (c10_one_tuple_per_line "x\n\ny".toList docThree [0, 1, 2] 1 (by decide) (by decide)).2.2.2
    (by decide) (by decide)

/-! ## Lemmas about the work-experience boundary search -/

theorem findNextHeaderGo_le (texts : List (List Char)) :
    ∀ (fuel i : Nat), findNextHeaderGo texts i fuel ≤ texts.length := by
  intro fuel
  induction fuel with
  | zero => intro i; simp [findNextHeaderGo]
  | succ fuel ih =>
    intro i
    by_cases h : isCapsHeader (texts.getD i []) = true
    · have hgo : findNextHeaderGo texts i (fuel + 1) = i := by
        simp only [findNextHeaderGo]
        rw [if_pos h]
      rw [hgo]
      by_contra hc
      push_neg at hc
      rw [List.getD_eq_default] at h
      · exact absurd h (by decide)
      · omega
    · have hgo : findNextHeaderGo texts i (fuel + 1) = findNextHeaderGo texts (i + 1) fuel := by
        simp only [findNextHeaderGo]
        rw [if_neg h]
      rw [hgo]
      exact ih (i + 1)

theorem findNextHeaderGo_not_before (texts : List (List Char)) :
    ∀ (fuel i x : Nat), i ≤ x → x < findNextHeaderGo texts i fuel → x < i + fuel →
    isCapsHeader (texts.getD x []) = false := by
  intro fuel
  induction fuel with
  | zero => intro i x h1 _ h3; exact absurd h3 (by omega)
  | succ fuel ih =>
    intro i x h1 h2 h3
    by_cases h : isCapsHeader (texts.getD i []) = true
    · have hgo : findNextHeaderGo texts i (fuel + 1) = i := by
        simp only [findNextHeaderGo]
        rw [if_pos h]
      rw [hgo] at h2
      exact absurd h2 (by omega)
    · have hgo : findNextHeaderGo texts i (fuel + 1) = findNextHeaderGo texts (i + 1) fuel := by
        simp only [findNextHeaderGo]
        rw [if_neg h]
      rcases Nat.eq_or_lt_of_le h1 with heq | hlt
      · rw [← heq]
        simpa using h
      · rw [hgo] at h2
        exact ih (i + 1) x hlt h2 (by omega)

theorem findNextHeaderGo_found (texts : List (List Char)) :
    ∀ (fuel i : Nat), findNextHeaderGo texts i fuel = texts.length ∨
      (i ≤ findNextHeaderGo texts i fuel ∧
        isCapsHeader (texts.getD (findNextHeaderGo texts i fuel) []) = true) := by
  intro fuel
  induction fuel with
  | zero => intro i; exact Or.inl rfl
  | succ fuel ih =>
    intro i
    by_cases h : isCapsHeader (texts.getD i []) = true
    · have hgo : findNextHeaderGo texts i (fuel + 1) = i := by
        simp only [findNextHeaderGo]
        rw [if_pos h]
      rw [hgo]
      exact Or.inr ⟨Nat.le_refl i, h⟩
    · have hgo : findNextHeaderGo texts i (fuel + 1) = findNextHeaderGo texts (i + 1) fuel := by
        simp only [findNextHeaderGo]
        rw [if_neg h]
      rw [hgo]
      rcases ih (i + 1) with hcase | ⟨hge, hcaps⟩
      · exact Or.inl hcase
      · exact Or.inr ⟨by omega, hcaps⟩

theorem findNextHeader_le (texts : List (List Char)) (s : Nat) :
    findNextHeader texts s ≤ texts.length :=
  findNextHeaderGo_le texts (texts.length - s) s

theorem findNextHeader_not_before (texts : List (List Char)) (s x : Nat)
    (h1 : s ≤ x) (h2 : x < findNextHeader texts s) :
    isCapsHeader (texts.getD x []) = false := by
  have hle := findNextHeaderGo_le texts (texts.length - s) s
  exact findNextHeaderGo_not_before texts (texts.length - s) s x h1 h2
    (by unfold findNextHeader at h2; omega)

theorem findNextHeader_found (texts : List (List Char)) (s : Nat) :
    findNextHeader texts s = texts.length ∨
      (s ≤ findNextHeader texts s ∧
        isCapsHeader (texts.getD (findNextHeader texts s) []) = true) :=
  findNextHeaderGo_found texts (texts.length - s) s

/-! ## Claim C7 -/

/-- C7: when the work-experience header is found at index w, the
work-experience section is exactly the indices strictly after w up to but
excluding the first later paragraph whose stripped text is fully upper-case
and longer than 3 characters; with no such paragraph it extends to the last
paragraph of the document. -/
theorem c7_work_experience_range (doc : List Paragraph) (w : Nat)
    (hw : (scanHeaders (doc.map paraText)).2.2 = some w) (x : Nat) :
    x ∈ (parse_docx_sections doc).work_experience ↔
      (w < x ∧ x < doc.length ∧
        ∀ m, w < m → m ≤ x → isCapsHeader ((doc.map paraText).getD m []) = false) := by
  have hn' : (doc.map paraText).length = doc.length := by simp
  rcases hsc : scanHeaders (doc.map paraText) with ⟨io, so, wo⟩
  rw [hsc] at hw
  simp only at hw
  subst hw
  have hwork : (parse_docx_sections doc).work_experience =
      List.range' (w + 1) (findNextHeader (doc.map paraText) (w + 1) - (w + 1)) := by
    simp only [parse_docx_sections, hsc]
  have hle := findNextHeader_le (doc.map paraText) (w + 1)
  rw [hn'] at hle
  rw [hwork, List.mem_range'_1]
  constructor
  · rintro ⟨h1, h2⟩
    have hxnh : x < findNextHeader (doc.map paraText) (w + 1) := by omega
    refine ⟨by omega, by omega, ?_⟩
    intro m hm1 hm2
    exact findNextHeader_not_before (doc.map paraText) (w + 1) m (by omega) (by omega)
  · rintro ⟨h1, h2, h3⟩
    refine ⟨by omega, ?_⟩
    by_contra hcon
    push_neg at hcon
    have hnhx : findNextHeader (doc.map paraText) (w + 1) ≤ x := by omega
    rcases findNextHeader_found (doc.map paraText) (w + 1) with hcase | ⟨hge, hcaps⟩
    · rw [hcase, hn'] at hnhx
      omega
    · rw [h3 (findNextHeader (doc.map paraText) (w + 1)) (by omega) (by omega)] at hcaps
      exact Bool.noConfusion hcaps

/-- Witness for C7: in the canonical header document the paragraph after the
work header belongs to the work-experience section, bounded by the EDUCATION
header. -/
theorem c7_witness :
    (scanHeaders (docHeaders.map paraText)).2.2 = some 4 ∧
    (5 ∈ (parse_docx_sections docHeaders).work_experience ↔
      (4 < 5 ∧ 5 < docHeaders.length ∧
        ∀ m, 4 < m → m ≤ 5 → isCapsHeader ((docHeaders.map paraText).getD m []) = false)) :=
  ⟨by decide, c7_work_experience_range docHeaders 4 (by decide) 5⟩

/-! ## Lemmas about the header scan -/

theorem scanGo_eq (hi hj hk : Nat) (hij : hi < hj) (hjk : hj < hk) :
    ∀ (ts : List (List Char)) (off : Nat) (a b c : Option Nat),
    (∀ m, m < ts.length → (introTest (ts.getD m []) = true ↔ off + m = hi)) →
    (∀ m, m < ts.length → (skillsTest (ts.getD m []) = true ↔ off + m = hj)) →
    (∀ m, m < ts.length → (workTest (ts.getD m []) = true ↔ off + m = hk)) →
    scanGo ts off (a, b, c) =
      ((if off ≤ hi ∧ hi < off + ts.length then some hi else a),
       (if off ≤ hj ∧ hj < off + ts.length then some hj else b),
       (if off ≤ hk ∧ hk < off + ts.length then some hk else c)) := by
  intro ts
  induction ts with
  | nil =>
    intro off a b c _ _ _
    simp only [scanGo, List.length_nil]
    rw [if_neg (by omega), if_neg (by omega), if_neg (by omega)]
  | cons t ts ih =>
    intro off a b c hI hJ hK
    have hIt : introTest t = true ↔ off = hi := by
      have := hI 0 (by simp)
      simpa using this
    have hJt : skillsTest t = true ↔ off = hj := by
      have := hJ 0 (by simp)
      simpa using this
    have hKt : workTest t = true ↔ off = hk := by
      have := hK 0 (by simp)
      simpa using this
    have hI' : ∀ m, m < ts.length →
        (introTest (ts.getD m []) = true ↔ off + 1 + m = hi) := by
      intro m hm
      have := hI (m + 1) (by simp only [List.length_cons]; omega)
      rw [List.getD_cons_succ] at this
      exact this.trans (by omega)
    have hJ' : ∀ m, m < ts.length →
        (skillsTest (ts.getD m []) = true ↔ off + 1 + m = hj) := by
      intro m hm
      have := hJ (m + 1) (by simp only [List.length_cons]; omega)
      rw [List.getD_cons_succ] at this
      exact this.trans (by omega)
    have hK' : ∀ m, m < ts.length →
        (workTest (ts.getD m []) = true ↔ off + 1 + m = hk) := by
      intro m hm
      have := hK (m + 1) (by simp only [List.length_cons]; omega)
      rw [List.getD_cons_succ] at this
      exact this.trans (by omega)
    simp only [scanGo]
    by_cases h1 : introTest t = true
    · rw [if_pos h1, ih (off + 1) (some off) b c hI' hJ' hK']
      have hoff : off = hi := hIt.mp h1
      subst hoff
      simp only [List.length_cons, Prod.mk.injEq]
      refine ⟨?_, ?_, ?_⟩ <;> split_ifs <;> first | rfl | (exfalso; omega)
    · rw [if_neg h1]
      have hnpi : off ≠ hi := fun hh => h1 (hIt.mpr hh)
      by_cases h2 : skillsTest t = true
      · rw [if_pos h2, ih (off + 1) a (some off) c hI' hJ' hK']
        have hoff : off = hj := hJt.mp h2
        subst hoff
        simp only [List.length_cons, Prod.mk.injEq]
        refine ⟨?_, ?_, ?_⟩ <;> split_ifs <;> first | rfl | (exfalso; omega)
      · rw [if_neg h2]
        have hnpj : off ≠ hj := fun hh => h2 (hJt.mpr hh)
        by_cases h3 : workTest t = true
        · rw [if_pos h3, ih (off + 1) a b (some off) hI' hJ' hK']
          have hoff : off = hk := hKt.mp h3
          subst hoff
          simp only [List.length_cons, Prod.mk.injEq]
          refine ⟨?_, ?_, ?_⟩ <;> split_ifs <;> first | rfl | (exfalso; omega)
        · rw [if_neg h3, ih (off + 1) a b c hI' hJ' hK']
          have hnpk : off ≠ hk := fun hh => h3 (hKt.mpr hh)
          simp only [List.length_cons, Prod.mk.injEq]
          refine ⟨?_, ?_, ?_⟩ <;> split_ifs <;> first | rfl | (exfalso; omega)

theorem scanHeaders_eq (texts : List (List Char)) (hi hj hk : Nat)
    (hij : hi < hj) (hjk : hj < hk) (hkn : hk < texts.length)
    (hI : ∀ m, m < texts.length → (introTest (texts.getD m []) = true ↔ m = hi))
    (hJ : ∀ m, m < texts.length → (skillsTest (texts.getD m []) = true ↔ m = hj))
    (hK : ∀ m, m < texts.length → (workTest (texts.getD m []) = true ↔ m = hk)) :
    scanHeaders texts = (some hi, some hj, some hk) := by
  unfold scanHeaders
  rw [scanGo_eq hi hj hk hij hjk texts 0 none none none
    (fun m hm => by simpa using hI m hm)
    (fun m hm => by simpa using hJ m hm)
    (fun m hm => by simpa using hK m hm)]
  rw [if_pos (by omega), if_pos (by omega), if_pos (by omega)]

/-! ## Claim C2 -/

/-- C2: for a document whose paragraphs contain the intro marker, the skills
header and the work-experience header in canonical order (intro before skills
before work, each matching exactly one paragraph), parse_docx_sections yields
pairwise-disjoint index lists for intro, skills and work_experience, and the
union of all four lists (with other) is exactly the set of paragraph indices
0..n-1. -/
theorem c2_sections_partition (doc : List Paragraph) (hi hj hk : Nat)
    (hij : hi < hj) (hjk : hj < hk) (hkn : hk < doc.length)
    (hI : ∀ m, m < doc.length →
      (introTest ((doc.map paraText).getD m []) = true ↔ m = hi))
    (hJ : ∀ m, m < doc.length →
      (skillsTest ((doc.map paraText).getD m []) = true ↔ m = hj))
    (hK : ∀ m, m < doc.length →
      (workTest ((doc.map paraText).getD m []) = true ↔ m = hk)) (x : Nat) :
    (¬(x ∈ (parse_docx_sections doc).intro ∧ x ∈ (parse_docx_sections doc).skills) ∧
     ¬(x ∈ (parse_docx_sections doc).intro ∧
        x ∈ (parse_docx_sections doc).work_experience) ∧
     ¬(x ∈ (parse_docx_sections doc).skills ∧
        x ∈ (parse_docx_sections doc).work_experience)) ∧
    ((x ∈ (parse_docx_sections doc).intro ∨ x ∈ (parse_docx_sections doc).skills ∨
      x ∈ (parse_docx_sections doc).work_experience ∨
      x ∈ (parse_docx_sections doc).other) ↔ x < doc.length) := by
  have hn' : (doc.map paraText).length = doc.length := by simp
  have hsc : scanHeaders (doc.map paraText) = (some hi, some hj, some hk) :=
    scanHeaders_eq (doc.map paraText) hi hj hk hij hjk (by rw [hn']; exact hkn)
      (fun m hm => hI m (by rwa [hn'] at hm))
      (fun m hm => hJ m (by rwa [hn'] at hm))
      (fun m hm => hK m (by rwa [hn'] at hm))
  have hfi : (parse_docx_sections doc).intro =
      (if hi + 1 < (doc.map paraText).length then [hi + 1] else []) := by
    simp only [parse_docx_sections, hsc]
  have hfs : (parse_docx_sections doc).skills = List.range' (hj + 1) (hk - (hj + 1)) := by
    simp only [parse_docx_sections, hsc]
  have hfw : (parse_docx_sections doc).work_experience =
      List.range' (hk + 1) (findNextHeader (doc.map paraText) (hk + 1) - (hk + 1)) := by
    simp only [parse_docx_sections, hsc]
  have hfo : (parse_docx_sections doc).other =
      (List.range (doc.map paraText).length).filter
        (fun y => !(decide (y ∈ (if hi + 1 < (doc.map paraText).length then [hi + 1] else []))
          || decide (y ∈ List.range' (hj + 1) (hk - (hj + 1)))
          || decide (y ∈ List.range' (hk + 1)
              (findNextHeader (doc.map paraText) (hk + 1) - (hk + 1))))) := by
    simp only [parse_docx_sections, hsc]
  have hmi : x ∈ (if hi + 1 < (doc.map paraText).length then [hi + 1] else []) ↔
      (x = hi + 1 ∧ hi + 1 < doc.length) := by
    by_cases h : hi + 1 < (doc.map paraText).length
    · rw [if_pos h]
      rw [hn'] at h
      simp only [List.mem_singleton]
      exact ⟨fun hx => ⟨hx, h⟩, fun hx => hx.1⟩
    · rw [if_neg h]
      rw [hn'] at h
      simp only [List.not_mem_nil, false_iff]
      exact fun hx => h hx.2
  have hms : x ∈ List.range' (hj + 1) (hk - (hj + 1)) ↔ (hj + 1 ≤ x ∧ x < hk) := by
    rw [List.mem_range'_1]
    omega
  have hmw : x ∈ List.range' (hk + 1)
      (findNextHeader (doc.map paraText) (hk + 1) - (hk + 1)) ↔
      (hk + 1 ≤ x ∧ x < findNextHeader (doc.map paraText) (hk + 1)) := by
    rw [List.mem_range'_1]
    omega
  have hxi : x ∈ (parse_docx_sections doc).intro ↔
      (x = hi + 1 ∧ hi + 1 < doc.length) := by rw [hfi]; exact hmi
  have hxs : x ∈ (parse_docx_sections doc).skills ↔ (hj + 1 ≤ x ∧ x < hk) := by
    rw [hfs]; exact hms
  have hxw : x ∈ (parse_docx_sections doc).work_experience ↔
      (hk + 1 ≤ x ∧ x < findNextHeader (doc.map paraText) (hk + 1)) := by
    rw [hfw]; exact hmw
  have hxo : x ∈ (parse_docx_sections doc).other ↔
      (x < doc.length ∧ ¬(x = hi + 1 ∧ hi + 1 < doc.length) ∧
        ¬(hj + 1 ≤ x ∧ x < hk) ∧
        ¬(hk + 1 ≤ x ∧ x < findNextHeader (doc.map paraText) (hk + 1))) := by
    rw [hfo]
    simp only [List.mem_filter, List.mem_range, Bool.not_eq_true', Bool.or_eq_false_iff,
      decide_eq_false_iff_not]
    rw [hmi, hms, hmw, hn']
    exact ⟨fun h => ⟨h.1, h.2.1.1, h.2.1.2, h.2.2⟩,
      fun h => ⟨h.1, ⟨h.2.1, h.2.2.1⟩, h.2.2.2⟩⟩
  have hnh := findNextHeader_le (doc.map paraText) (hk + 1)
  rw [hn'] at hnh
  refine ⟨⟨?_, ?_, ?_⟩, ?_⟩
  · rw [hxi, hxs]
    omega
  · rw [hxi, hxw]
    omega
  · rw [hxs, hxw]
    omega
  · rw [hxi, hxs, hxw, hxo]
    omega

/-- Witness for C2: the canonical header document, whose markers sit at
indices 0, 2 and 4; index 3 lies in some section and below the length. -/
theorem c2_witness :
    (∀ m, m < docHeaders.length →
      (introTest ((docHeaders.map paraText).getD m []) = true ↔ m = 0)) ∧
    ((3 ∈ (parse_docx_sections docHeaders).intro ∨
      3 ∈ (parse_docx_sections docHeaders).skills ∨
      3 ∈ (parse_docx_sections docHeaders).work_experience ∨
      3 ∈ (parse_docx_sections docHeaders).other) ↔ 3 < docHeaders.length) :=
  ⟨by decide, (c2_sections_partition docHeaders 0 2 4 (by decide) (by decide) (by decide)
    (by decide) (by decide) (by decide) 3).2⟩

end Resume
